import Mathlib

/-
Verification development for the pose-error metric library
(src/utils/pose_error.py).

Modelling conventions:
* numpy float64 arithmetic is modelled by exact arithmetic: rationals
  where the code path uses only +, -, *, /, comparisons (translation
  error, AUC summarizer, shape bookkeeping of the transforms), and reals
  where sqrt / arccos / pi are involved (add, adi, re, quat_re).
* a numpy ndarray of shape (a, b) is a rectangular List (List _) of
  a rows of length b; shape (a, b, c) is a triply nested list.
* np.nan results and failed assert statements are modelled by Option:
  none stands for NaN (respectively for an AssertionError); some v is a
  normal numeric result v.
* np.inf produced by the cutoff clamp in compute_auc_posecnn is
  modelled by Option inside the list: none stands for inf (it is
  filtered out by the isfinite mask immediately afterwards).
-/

set_option maxRecDepth 4000

/-- Dot product of two equal-length numeric lists, `(a * b).sum()`. -/
def dot {α : Type} [CommRing α] (xs ys : List α) : α :=
  (List.zipWith (fun a b => a * b) xs ys).sum

/-- Column `j` of a rectangular list-of-rows matrix. -/
def getCol {α : Type} [CommRing α] (j : ℕ) (X : List (List α)) : List α :=
  X.map (fun r => r.getD j 0)

/-- Transpose of a rectangular matrix whose rows have length `n`
(`n` is the row count of the result; numpy derives it from the shape). -/
def transposeN {α : Type} [CommRing α] (n : ℕ) (X : List (List α)) : List (List α) :=
  (List.range n).map (fun j => getCol j X)

/-- Matrix product `A @ B` for rectangular list matrices:
entry (i, j) is the dot product of row i of A with column j of B. -/
def matMul {α : Type} [CommRing α] (A B : List (List α)) : List (List α) :=
  A.map (fun r => (List.range B.headI.length).map (fun j => dot r (getCol j B)))

/-- Broadcast addition of a column vector: `X + t.reshape((len t, 1))`
adds `t i` to every entry of row `i` of `X`. -/
def addCol {α : Type} [CommRing α] (X : List (List α)) (t : List α) : List (List α) :=
  List.zipWith (fun row ti => row.map (fun x => x + ti)) X t

/-- Matrix-vector product, used to state what a transformed point is. -/
def matVec {α : Type} [CommRing α] (A : List (List α)) (p : List α) : List α :=
  A.map (fun r => dot r p)

/-- Mean of a list of numbers, `np.mean`. -/
def mean {α : Type} [DivisionRing α] (l : List α) : α :=
  l.sum / l.length

/-- Shape of a triply nested (rank-3) rectangular array. -/
def shape3 {α : Type} (X : List (List (List α))) : ℕ × ℕ × ℕ :=
  (X.length, X.headI.length, X.headI.headI.length)

/-- Test modelling the two assert statements of `add`:
`R.shape[-1] == 3 and R.shape[-2] == 3` for a batch of matrices
(an ndarray is rectangular, so the trailing dims are each slice's dims). -/
def is3x3 {α : Type} (R : List (List (List α))) : Bool :=
  R.all (fun M => M.length == 3 && M.all (fun r => r.length == 3))

/-- Source `transform_pts_Rt_batch(pts, R, t)`:
`R @ (pts.T) + t.reshape((-1, 3, 1))` with R of shape (N,3,3) and t of
shape (N,3); numpy broadcasting over the leading batch dimension is the
slot-wise pairing of the N rotation matrices with the N translations.
NOTE the function returns this value directly (shape N x 3 x M), with no
final transpose.  This definition is the total core of the source
function: the source's `assert pts.shape[1] == 3` and the ValueErrors
numpy raises for non-conforming shapes are not represented in it (the
theorems about it restrict to the assert-satisfying domain); for the
caller `add`, those raising paths are accounted for by `add`'s guard
and by `add_raises_assertion`. -/
def transform_pts_Rt_batch {α : Type} [CommRing α] (pts : List (List α))
    (R : List (List (List α))) (t : List (List α)) : List (List (List α)) :=
  List.zipWith (fun Rn tn => addCol (matMul Rn (transposeN 3 pts)) tn) R t

/-- Source `transform_pts_Rt(pts, R, t)`:
`(R @ (pts.T) + t.reshape((3, 1))).T`, shape M x 3. -/
def transform_pts_Rt {α : Type} [CommRing α] (pts : List (List α))
    (R : List (List α)) (t : List α) : List (List α) :=
  transposeN pts.length (addCol (matMul R (transposeN 3 pts)) t)

/-- Euclidean distance between two coordinate lists,
`np.sqrt(((a - b) ** 2).sum())`. -/
noncomputable def eudist (a b : List ℝ) : ℝ :=
  Real.sqrt (((List.zipWith (fun x y => x - y) a b).map (fun x => x ^ 2)).sum)

/-- Exact nearest-neighbour distance from point `g` to the point set
`es`, as computed by `spatial.cKDTree(es).query(g, k=1)`: the minimum
Euclidean distance from `g` to an element of `es`. -/
noncomputable def nnDist (g : List ℝ) (es : List (List ℝ)) : ℝ :=
  match es with
  | [] => 0
  | e :: rest => rest.foldl (fun acc x => min acc (eudist g x)) (eudist g e)

/-- Per-point distances of one batch slice of `add`:
`np.sqrt(((pts_est - pts_gt) ** 2).sum(1))` for a pair of 3 x M slices;
the entry at point index m sums the squared differences of column m. -/
noncomputable def sliceDists (Pe Pg : List (List ℝ)) : List ℝ :=
  (List.range Pe.headI.length).map (fun m => eudist (getCol m Pe) (getCol m Pg))

/-- Source `add(R_est, t_est, R_gt, t_gt, pts)` as a partial function:
`some` is the numeric result, `none` models a raised exception.  The
guard collects, in source order, the ways the call raises on
rectangular ndarray inputs of the modelled ranks (rotations rank 3,
translations rank 2, points rank 2):
* `is3x3 R_est` — the function's own two asserts
  (`R_est.shape[-1] == 3` and `R_est.shape[-2] == 3`); their failure is
  an AssertionError (see `add_raises_assertion`);
* `pts` nonempty with rows of length 3 — the callee assert
  `pts.shape[1] == 3` inside `transform_pts_Rt_batch` (for an empty
  `pts`, reading `pts.shape[1]` itself raises);
* the remaining conjuncts — conformance of the ground-truth matmul
  (3 x 3 slices), of the two `t.reshape((-1, 3, 1))` broadcast sums
  (slot counts equal, rows of length 3) and of the elementwise
  difference (equal batch counts).  Outside these, numpy either raises
  a ValueError, or (for degenerate broadcast shapes such as a
  1 x 1 x 3 rotation batch, or a single translation broadcast over
  several poses) computes by replication, which is outside the
  slot-wise pairing modelled here; both are conservatively `none`.
On the `some` domain every broadcast is exactly slot-wise and the
result is `np.sqrt(((pts_est - pts_gt) ** 2).sum(1)).mean(1)`, one mean
distance per pose of the estimated batch, exactly as numpy computes
it. -/
noncomputable def add (R_est : List (List (List ℝ))) (t_est : List (List ℝ))
    (R_gt : List (List (List ℝ))) (t_gt : List (List ℝ))
    (pts : List (List ℝ)) : Option (List ℝ) :=
  if is3x3 R_est && (!pts.isEmpty && pts.all (fun r => r.length == 3)) &&
      is3x3 R_gt && (R_est.length == t_est.length) && t_est.all (fun v => v.length == 3) &&
      (R_gt.length == t_gt.length) && t_gt.all (fun v => v.length == 3) &&
      (R_est.length == R_gt.length) then
    some (List.zipWith (fun Pe Pg => mean (sliceDists Pe Pg))
      (transform_pts_Rt_batch pts R_est t_est)
      (transform_pts_Rt_batch pts R_gt t_gt))
  else none

/-- True exactly when the call `add(R_est, t_est, R_gt, t_gt, pts)`
raises an AssertionError: either of add's own asserts on `R_est`
(executed first), or the callee assert `pts.shape[1] == 3` inside
`transform_pts_Rt_batch`, reached with a nonempty `pts` whose row
length is not 3.  No assert in the source reads the ground-truth
arguments or the translations, which is why they do not appear.  (An
empty `pts` raises IndexError while the assert's expression is being
evaluated — not an AssertionError — and later shape mismatches raise
ValueError, so both cases are `false` here.) -/
def add_raises_assertion (R_est : List (List (List ℝ))) (pts : List (List ℝ)) : Bool :=
  !is3x3 R_est || (!pts.isEmpty && !pts.all (fun r => r.length == 3))

/-- Source `adi(R_est, t_est, R_gt, t_gt, pts)`: mean over the
ground-truth transformed points of the nearest-neighbour distance into
the estimated transformed point set. -/
noncomputable def adi (R_est : List (List ℝ)) (t_est : List ℝ)
    (R_gt : List (List ℝ)) (t_gt : List ℝ)
    (pts : List (List ℝ)) : ℝ :=
  mean ((transform_pts_Rt pts R_gt t_gt).map
    (fun g => nnDist g (transform_pts_Rt pts R_est t_est)))

/-- Source `np.clip(x, a_min=-1, a_max=1)`. -/
noncomputable def clip (x : ℝ) : ℝ := min 1 (max (-1) x)

/-- Source `np.degrees(x)`: radians to degrees. -/
noncomputable def degrees (x : ℝ) : ℝ := x * (180 / Real.pi)

/-- Source `re(R_est, R_gt)` for a single pair of 3 x 3 matrices
(the source reshapes its input to shape (-1, 3, 3) and applies exactly
this computation to each slice; for 3 x 3 inputs there is one slice):
`degrees(arccos(clip((trace(R_est @ inv(R_gt)) - 1.0) * 0.5, -1, 1)))`.
`np.linalg.inv` is modelled by the Mathlib matrix inverse. -/
noncomputable def re (R_est R_gt : Matrix (Fin 3) (Fin 3) ℝ) : ℝ :=
  degrees (Real.arccos (clip ((Matrix.trace (R_est * R_gt⁻¹) - 1) * (1 / 2))))

/-- Source `te(t_est, t_gt)`: asserts
`t_est.size == t_gt.size == 3` (modelled as the guard; a failed assert
is `none`), then returns `np.abs(t_gt - t_est).mean()`. -/
def te (t_est t_gt : List ℚ) : Option ℚ :=
  if t_est.length = t_gt.length ∧ t_gt.length = 3 then
    some (mean ((List.zipWith (fun a b => a - b) t_gt t_est).map (fun x => |x|)))
  else none

/-- Model of `np.arccos`: for arguments outside the domain the float
function returns NaN, modelled as `none`. -/
noncomputable def arccosN (x : ℝ) : Option ℝ :=
  if -1 ≤ x ∧ x ≤ 1 then some (Real.arccos x) else none

/-- Source `quat_re(q1, q2)`: row-wise inner product of the two N x 4
arrays, then `np.degrees(np.arccos(...))` entrywise; a NaN entry
(inner product outside the arccos domain) is `none`. -/
noncomputable def quat_re (q1 q2 : List (List ℝ)) : List (Option ℝ) :=
  (List.zipWith (fun r1 r2 => (List.zipWith (fun a b => a * b) r1 r2).sum) q1 q2).map
    (fun s => (arccosN s).map degrees)

/-- Step 2 of `compute_auc_posecnn`: `d[d > 0.1] = np.inf`, applied to
each entry; inf is `none` (it is removed by the isfinite mask next). -/
def infMask (d : List ℚ) : List (Option ℚ) :=
  d.map (fun x => if 1 / 10 < x then none else some x)

/-- Accuracy curve of `compute_auc_posecnn`:
`np.cumsum(np.ones(n)) / n` is the list (i + 1) / n for i < n. -/
def accList (n : ℕ) : List ℚ :=
  (List.range n).map (fun i : ℕ => ((i : ℚ) + 1) / n)

/-- Finite part of the curve: the pairs (error, accuracy) kept by the
mask `ids = np.isfinite(d)` (`d = d[ids]; accuracy = accuracy[ids]`). -/
def finPairs (d : List ℚ) : List (ℚ × ℚ) :=
  ((infMask d).zip (accList d.length)).filterMap
    (fun p => p.1.map (fun v => (v, p.2)))

/-- Forward running maximum with carried value `c`, modelling the loop
`for i in 1..len(mpre): mpre[i] = max(mpre[i], mpre[i-1])`. -/
def runMax (c : ℚ) : List ℚ → List ℚ
  | [] => []
  | y :: ys => max c y :: runMax (max c y) ys

/-- Integration step of `compute_auc_posecnn`:
`ids = where(mrec[1:] != mrec[:-1]) + 1` and
`((mrec[ids] - mrec[ids-1]) * mpre[ids]).sum()`, walking the zipped
tails of mrec and mpre with the previous mrec value carried. -/
def vocSum (prev : ℚ) : List (ℚ × ℚ) → ℚ
  | [] => 0
  | (r, p) :: rest => (if r ≠ prev then (r - prev) * p else 0) + vocSum r rest

/-- Value computed by `compute_auc_posecnn` after the early-return
guard, for the sorted array `d`:
`mrec = [0] ++ rec ++ [0.1]` and `mpre = [0] ++ prec ++ [prec[-1]]`
(index 0 of mpre is untouched by the running-max loop, which starts at
index 1 carrying `mpre[0] = 0`), then the step-sum times 10. -/
def aucBody (d : List ℚ) : ℚ :=
  vocSum 0
    ((((finPairs d).map Prod.fst) ++ [1 / 10]).zip
      (runMax 0 (((finPairs d).map Prod.snd) ++ [((finPairs d).map Prod.snd).getLastD 0]))) * 10

/-- Source `compute_auc_posecnn(errors)`: sort ascending, clamp entries
above the 0.1 cutoff to inf, keep the finite part of the accuracy
curve, return NaN (`none`) if the array is empty (`len(ids) == 0`) or
nothing finite remains (`ids.sum() == 0`), else integrate. -/
def compute_auc_posecnn (errors : List ℚ) : Option ℚ :=
  if (List.insertionSort (fun a b => a ≤ b) errors).length = 0 ∨
      (finPairs (List.insertionSort (fun a b => a ≤ b) errors)).length = 0 then none
  else some (aucBody (List.insertionSort (fun a b => a ≤ b) errors))

/-- Derived closed form used in the AUC proofs: walking the finite
sorted values with the previous value carried (starting at 0), each
kept value contributes `1/10 - previous`.  This is not a source
function; `aucBody` is proved equal to `10 / n` times this sum. -/
def hsum : ℚ → List ℚ → ℚ
  | _, [] => 0
  | prev, x :: xs => (1 / 10 - prev) + hsum x xs

/-- Plain (unguarded) variant of `vocSum`; the guard only skips terms
that are zero anyway, so both agree (proved below). -/
def vocSumP : ℚ → List (ℚ × ℚ) → ℚ
  | _, [] => 0
  | prev, (r, p) :: rest => (r - prev) * p + vocSumP r rest

/-! ### Generic access lemmas for rectangular list matrices -/

lemma getD_map_lt {α β : Type} (f : α → β) (l : List α) {n : ℕ}
    (h : n < l.length) (d : β) (d1 : α) :
    (l.map f).getD n d = f (l.getD n d1) := by
  rw [List.getD_eq_getElem _ _ (by simpa using h), List.getD_eq_getElem _ _ h,
    List.getElem_map]

lemma getD_zipWith_lt {α β γ : Type} (f : α → β → γ) (l1 : List α) (l2 : List β) {n : ℕ}
    (h1 : n < l1.length) (h2 : n < l2.length) (d : γ) (d1 : α) (d2 : β) :
    (List.zipWith f l1 l2).getD n d = f (l1.getD n d1) (l2.getD n d2) := by
  rw [List.getD_eq_getElem _ _ (by simp [List.length_zipWith]; omega),
    List.getD_eq_getElem _ _ h1, List.getD_eq_getElem _ _ h2, List.getElem_zipWith]

lemma getD_map_range {α : Type} (f : ℕ → α) {k n : ℕ} (h : n < k) (d : α) :
    ((List.range k).map f).getD n d = f n := by
  rw [List.getD_eq_getElem _ _ (by simpa using h), List.getElem_map, List.getElem_range]

lemma map_range_getD {α : Type} {l : List α} {n : ℕ} (h : l.length = n) (d : α) :
    (List.range n).map (fun j => l.getD j d) = l := by
  apply List.ext_get (by simp [h])
  intro i h1 h2
  have hi : i < n := by simpa using h1
  rw [List.get_eq_getElem, List.getElem_map, List.getElem_range,
    List.getD_eq_getElem _ _ (h ▸ hi), List.get_eq_getElem]

/-! ### AUC: degenerate inputs return NaN -/

lemma infMask_eq_map_none (d : List ℚ) (h : ∀ x ∈ d, 1 / 10 < x) :
    infMask d = d.map (fun _ => none) := by
  unfold infMask
  exact List.map_congr_left (fun x hx => if_pos (h x hx))

lemma filterMap_zip_map_none (v : List ℚ) : ∀ A : List ℚ,
    ((v.map (fun _ => (none : Option ℚ))).zip A).filterMap
      (fun p => p.1.map (fun w => (w, p.2))) = [] := by
  induction v with
  | nil => intro A; simp
  | cons x xs ih =>
    intro A
    cases A with
    | nil => simp
    | cons a as => simpa using ih as

lemma finPairs_eq_nil (d : List ℚ) (h : ∀ x ∈ d, 1 / 10 < x) : finPairs d = [] := by
  unfold finPairs
  rw [infMask_eq_map_none d h]
  exact filterMap_zip_map_none d _

lemma auc_none_of_all_gt (errors : List ℚ) (h : ∀ x ∈ errors, 1 / 10 < x) :
    compute_auc_posecnn errors = none := by
  unfold compute_auc_posecnn
  have hall : ∀ x ∈ List.insertionSort (fun a b => a ≤ b) errors, 1 / 10 < x := fun x hx =>
    h x ((List.perm_insertionSort _ errors).mem_iff.mp hx)
  rw [finPairs_eq_nil _ hall]
  simp

/-- C1 counterexample: on the concrete array with the single entry 0.2
(every element exceeds the 0.1 cutoff), `compute_auc_posecnn` does not
return the numeric score 0.0 — it returns NaN (`none`). -/
theorem auc_all_above_cutoff_ce : ¬ compute_auc_posecnn [1 / 5] = some 0 := by
  norm_num [compute_auc_posecnn, finPairs, infMask, accList, List.insertionSort,
    List.orderedInsert, List.range_succ, List.filterMap_cons]
  exact fun h => Option.noConfusion h

/-- C1 (amended): for every 1-D array of non-negative error values in
which every element exceeds the cutoff 0.1, `compute_auc_posecnn`
returns NaN ("undefined", modelled as `none`), not the numeric
score 0.0. -/
theorem auc_all_above_cutoff_nan (errors : List ℚ) (h0 : ∀ x ∈ errors, 0 ≤ x)
    (h : ∀ x ∈ errors, 1 / 10 < x) : compute_auc_posecnn errors = none :=
  auc_none_of_all_gt errors h

/-- Witness for the amended C1 at the concrete input with entry 0.2. -/
theorem auc_all_above_cutoff_nan_witness :
    (∀ x ∈ [(1 : ℚ) / 5], 0 ≤ x ∧ 1 / 10 < x) ∧ compute_auc_posecnn [1 / 5] = none :=
  ⟨by norm_num, auc_all_above_cutoff_nan [1 / 5] (by norm_num) (by norm_num)⟩

/-- C4: `compute_auc_posecnn` returns NaN (`none`) whenever the input
array is empty or no finite errors remain after every error exceeding
the 0.1 cutoff is clamped to infinity (i.e. every element exceeds the
cutoff). -/
theorem auc_undefined_on_degenerate (errors : List ℚ)
    (h : errors = [] ∨ ∀ x ∈ errors, 1 / 10 < x) :
    compute_auc_posecnn errors = none := by
  rcases h with h | h
  · subst h; rfl
  · exact auc_none_of_all_gt errors h

/-- Witness for C4 at the concrete empty input. -/
theorem auc_undefined_on_degenerate_witness : compute_auc_posecnn [] = none :=
  auc_undefined_on_degenerate [] (Or.inl rfl)

/-! ### AUC: closed form of the integration step -/

lemma vocSum_eq_vocSumP : ∀ (l : List (ℚ × ℚ)) (prev : ℚ), vocSum prev l = vocSumP prev l := by
  intro l
  induction l with
  | nil => intro prev; rfl
  | cons hd tl ih =>
    intro prev
    obtain ⟨r, p⟩ := hd
    by_cases h : r = prev
    · subst h; simp [vocSum, vocSumP, ih]
    · simp [vocSum, vocSumP, h, ih]

lemma vocSumP_eval (c : ℚ) : ∀ (l : List ℚ) (j : ℕ) (prev : ℚ),
    vocSumP prev ((l.zip ((List.range' (j + 1) l.length).map (fun i : ℕ => (i : ℚ) / c))) ++
      [(1 / 10, ((j : ℚ) + (l.length : ℚ)) / c)]) =
    (j : ℚ) / c * (1 / 10 - prev) + 1 / c * hsum prev l := by
  intro l
  induction l with
  | nil =>
    intro j prev
    simp [vocSumP, hsum]
    ring
  | cons x xs ih =>
    intro j prev
    have hr : List.range' (j + 1) (x :: xs).length = (j + 1) :: List.range' (j + 1 + 1) xs.length := by
      rw [List.length_cons, List.range'_succ]
    rw [hr, List.map_cons, List.zip_cons_cons, List.cons_append]
    have hpair : ((j : ℚ) + ((x :: xs).length : ℚ)) / c = (((j + 1 : ℕ) : ℚ) + (xs.length : ℚ)) / c := by
      push_cast [List.length_cons]
      ring_nf
    rw [hpair]
    simp only [vocSumP]
    rw [ih (j + 1) x]
    rw [show hsum prev (x :: xs) = (1 / 10 - prev) + hsum x xs from rfl]
    push_cast
    ring

lemma runMax_eq_of_chain : ∀ (l : List ℚ) (c : ℚ),
    List.Chain' (fun a b => a ≤ b) (c :: l) → runMax c l = l := by
  intro l
  induction l with
  | nil => intro c _; rfl
  | cons y ys ih =>
    intro c hc
    obtain ⟨hcy, hrest⟩ := List.chain'_cons.mp hc
    simp only [runMax, max_eq_right hcy]
    rw [ih y hrest]

lemma chain'_map_range_mono (f : ℕ → ℚ) (hf : ∀ i, f i ≤ f (i + 1)) (k : ℕ) :
    List.Chain' (fun a b => a ≤ b) ((List.range k).map f) := by
  cases k with
  | zero => simp
  | succ n =>
    rw [List.chain'_map]
    exact (List.chain'_range_succ _ n).mpr (fun m _ => hf m)

lemma chain_accuracy (k N : ℕ) (hk : k ≠ 0) :
    List.Chain' (fun a b : ℚ => a ≤ b)
      (0 :: (((List.range k).map (fun i : ℕ => ((i : ℚ) + 1) / (N : ℚ))) ++ [(k : ℚ) / (N : ℚ)])) := by
  obtain ⟨k', rfl⟩ := Nat.exists_eq_succ_of_ne_zero hk
  apply List.chain'_cons'.mpr
  constructor
  · intro y hy
    rw [List.range_succ_eq_map, List.map_cons, List.cons_append, List.head?_cons,
      Option.mem_some_iff] at hy
    subst hy
    positivity
  · apply List.chain'_append.mpr
    refine ⟨chain'_map_range_mono _ (fun i => by gcongr <;> push_cast <;> linarith) _, by simp, ?_⟩
    intro x hx y hy
    rw [List.range_succ, List.map_append, List.map_cons, List.map_nil,
      List.getLast?_concat, Option.mem_some_iff] at hx
    rw [List.head?_cons, Option.mem_some_iff] at hy
    subst hx
    subst hy
    push_cast
    linarith

lemma getLastD_accuracy (k : ℕ) (hk : k ≠ 0) (c : ℚ) :
    (((List.range k).map (fun i : ℕ => ((i : ℚ) + 1) / c)).getLastD 0) = (k : ℚ) / c := by
  obtain ⟨k', rfl⟩ := Nat.exists_eq_succ_of_ne_zero hk
  rw [List.range_succ, List.map_append, List.map_cons, List.map_nil, List.getLastD_concat]
  push_cast
  ring_nf

/-! ### AUC: structure of the finite pairs for a sorted input -/

lemma dropWhile_gt_of_sorted : ∀ {d : List ℚ}, List.Sorted (fun a b => a ≤ b) d →
    ∀ x ∈ d.dropWhile (fun y => decide (y ≤ 1 / 10)), 1 / 10 < x := by
  intro d
  induction d with
  | nil => intro _ x hx; simp at hx
  | cons a l ih =>
    intro hd x hx
    obtain ⟨ha, hl⟩ := List.sorted_cons.mp hd
    by_cases hle : a ≤ 1 / 10
    · rw [List.dropWhile_cons_of_pos (by simpa using hle)] at hx
      exact ih hl x hx
    · rw [List.dropWhile_cons_of_neg (by simpa using hle)] at hx
      rcases List.mem_cons.mp hx with h | h
      · subst h; exact lt_of_not_le hle
      · exact lt_of_lt_of_le (lt_of_not_le hle) (ha x h)

lemma infMask_split (d u v : List ℚ) (hd : d = u ++ v) (hu : ∀ x ∈ u, ¬ 1 / 10 < x)
    (hv : ∀ x ∈ v, 1 / 10 < x) :
    infMask d = u.map some ++ v.map (fun _ => none) := by
  subst hd
  unfold infMask
  rw [List.map_append]
  congr 1
  · exact List.map_congr_left fun x hx => if_neg (hu x hx)
  · exact List.map_congr_left fun x hx => if_pos (hv x hx)

lemma filterMap_zip_map_some (u : List ℚ) : ∀ A : List ℚ,
    ((u.map some).zip A).filterMap (fun p => p.1.map (fun w => (w, p.2))) = u.zip A := by
  induction u with
  | nil => intro A; simp
  | cons x xs ih =>
    intro A
    cases A with
    | nil => simp
    | cons a as => simpa using ih as

lemma finPairs_sorted (d : List ℚ) (hd : List.Sorted (fun a b => a ≤ b) d) :
    finPairs d = (d.takeWhile (fun y => decide (y ≤ 1 / 10))).zip
      ((List.range (d.takeWhile (fun y => decide (y ≤ 1 / 10))).length).map
        (fun i : ℕ => ((i : ℚ) + 1) / (d.length : ℚ))) := by
  have hsplit : d = d.takeWhile (fun y => decide (y ≤ 1 / 10)) ++
      d.dropWhile (fun y => decide (y ≤ 1 / 10)) := (List.takeWhile_append_dropWhile _ _).symm
  have hu : ∀ x ∈ d.takeWhile (fun y => decide (y ≤ 1 / 10)), ¬ 1 / 10 < x := fun x hx =>
    not_lt.mpr (by simpa using List.mem_takeWhile_imp hx)
  have hv := dropWhile_gt_of_sorted hd
  unfold finPairs
  rw [infMask_split d _ _ hsplit hu hv]
  unfold accList
  have hrange : List.range d.length =
      List.range (d.takeWhile (fun y => decide (y ≤ 1 / 10))).length ++
      (List.range (d.dropWhile (fun y => decide (y ≤ 1 / 10))).length).map
        (fun x => (d.takeWhile (fun y => decide (y ≤ 1 / 10))).length + x) := by
    rw [← List.range_add]
    congr 1
    conv_lhs => rw [hsplit]
    rw [List.length_append]
  rw [hrange, List.map_append, List.zip_append (by simp), List.filterMap_append,
    filterMap_zip_map_some, filterMap_zip_map_none, List.append_nil]

lemma auc_closed_form (errors : List ℚ) (a : ℚ)
    (h : compute_auc_posecnn errors = some a) :
    errors ≠ [] ∧
    (List.insertionSort (fun x y => x ≤ y) errors).takeWhile
      (fun y => decide (y ≤ 1 / 10)) ≠ [] ∧
    a = hsum 0 ((List.insertionSort (fun x y => x ≤ y) errors).takeWhile
          (fun y => decide (y ≤ 1 / 10))) / (errors.length : ℚ) * 10 := by
  have hsorted : List.Sorted (fun x y => x ≤ y) (List.insertionSort (fun x y => x ≤ y) errors) :=
    List.sorted_insertionSort _ errors
  have hfp := finPairs_sorted _ hsorted
  unfold compute_auc_posecnn at h
  by_cases hguard : (List.insertionSort (fun x y => x ≤ y) errors).length = 0 ∨
      (finPairs (List.insertionSort (fun x y => x ≤ y) errors)).length = 0
  · rw [if_pos hguard] at h
    exact absurd h (by simp)
  push_neg at hguard
  obtain ⟨hN, hk⟩ := hguard
  rw [if_neg (by push_neg; exact ⟨hN, hk⟩)] at h
  set d := List.insertionSort (fun x y => x ≤ y) errors with hdd
  set u := d.takeWhile (fun y => decide (y ≤ 1 / 10)) with huu
  have hlen_d : d.length = errors.length := List.length_insertionSort _ errors
  have hkl : (finPairs d).length = u.length := by
    rw [hfp, List.length_zip]
    simp
  have hu_ne : u ≠ [] := by
    intro h0
    apply hk
    rw [hkl, h0]
    rfl
  have hu_len : u.length ≠ 0 := fun h0 => hu_ne (List.length_eq_zero.mp h0)
  refine ⟨fun h0 => hN (by rw [hlen_d, h0]; rfl), hu_ne, ?_⟩
  -- evaluate the body
  unfold aucBody at h
  rw [hfp] at h
  rw [List.map_fst_zip _ _ (by simp), List.map_snd_zip _ _ (by simp)] at h
  rw [getLastD_accuracy u.length hu_len] at h
  rw [runMax_eq_of_chain _ _ (chain_accuracy u.length d.length hu_len)] at h
  rw [List.zip_append (by simp)] at h
  simp only [List.zip_cons_cons, List.zip_nil_right] at h
  rw [vocSum_eq_vocSumP] at h
  have hA1 : (List.range u.length).map (fun i : ℕ => ((i : ℚ) + 1) / (d.length : ℚ)) =
      (List.range' (0 + 1) u.length).map (fun i : ℕ => (i : ℚ) / (d.length : ℚ)) := by
    rw [List.range'_eq_map_range, List.map_map]
    apply List.map_congr_left
    intro i _
    simp only [Function.comp_apply]
    push_cast
    ring
  rw [hA1] at h
  rw [show ((u.length : ℚ) / (d.length : ℚ)) = (((0 : ℕ) : ℚ) + (u.length : ℚ)) / (d.length : ℚ)
    by push_cast; ring] at h
  rw [vocSumP_eval (d.length : ℚ) u 0 0] at h
  rw [← hlen_d, ← Option.some.inj h]
  push_cast
  ring

/-! ### AUC: monotonicity -/

lemma hsum_takeWhile_nonneg : ∀ (l : List ℚ) {p : ℚ}, p ≤ 1 / 10 →
    0 ≤ hsum p (l.takeWhile (fun y => decide (y ≤ 1 / 10))) := by
  intro l
  induction l with
  | nil => intro p _; simp [hsum]
  | cons x xs ih =>
    intro p hp
    by_cases hx : x ≤ 1 / 10
    · rw [List.takeWhile_cons_of_pos (by simpa using hx)]
      rw [show hsum p (x :: xs.takeWhile (fun y => decide (y ≤ 1 / 10))) =
        (1 / 10 - p) + hsum x (xs.takeWhile (fun y => decide (y ≤ 1 / 10))) from rfl]
      have := ih hx
      linarith
    · rw [List.takeWhile_cons_of_neg (by simpa using hx)]
      simp [hsum]

lemma hsum_takeWhile_mono : ∀ {lA lB : List ℚ}, List.Forall₂ (fun a b => a ≤ b) lA lB →
    ∀ {p q : ℚ}, p ≤ q → q ≤ 1 / 10 →
    hsum q (lB.takeWhile (fun y => decide (y ≤ 1 / 10))) ≤
      hsum p (lA.takeWhile (fun y => decide (y ≤ 1 / 10))) := by
  intro lA lB h
  induction h with
  | nil => intro p q _ _; simp [hsum]
  | @cons x y lA' lB' hxy htail ih =>
    intro p q hpq hq
    by_cases hy : y ≤ 1 / 10
    · have hx : x ≤ 1 / 10 := le_trans hxy hy
      rw [List.takeWhile_cons_of_pos (by simpa using hy),
        List.takeWhile_cons_of_pos (by simpa using hx)]
      rw [show hsum q (y :: lB'.takeWhile (fun y => decide (y ≤ 1 / 10))) =
        (1 / 10 - q) + hsum y (lB'.takeWhile (fun y => decide (y ≤ 1 / 10))) from rfl]
      rw [show hsum p (x :: lA'.takeWhile (fun y => decide (y ≤ 1 / 10))) =
        (1 / 10 - p) + hsum x (lA'.takeWhile (fun y => decide (y ≤ 1 / 10))) from rfl]
      have := ih hxy hy
      linarith
    · rw [List.takeWhile_cons_of_neg (by simpa using hy)]
      rw [show hsum q ([] : List ℚ) = 0 from rfl]
      exact hsum_takeWhile_nonneg _ (le_trans hpq hq)

/-- C5: for every two equal-length, non-negative error arrays A and B
whose i-th smallest elements satisfy sorted(A) i ≤ sorted(B) i for every
rank i, and whose AUC scores are both defined, the AUC of A is at least
the AUC of B. -/
theorem auc_monotone (A B : List ℚ) (hlen : A.length = B.length)
    (hA0 : ∀ x ∈ A, 0 ≤ x) (hB0 : ∀ x ∈ B, 0 ≤ x)
    (hle : List.Forall₂ (fun a b => a ≤ b) (List.insertionSort (fun x y => x ≤ y) A)
      (List.insertionSort (fun x y => x ≤ y) B))
    (a b : ℚ) (ha : compute_auc_posecnn A = some a) (hb : compute_auc_posecnn B = some b) :
    b ≤ a := by
  obtain ⟨hAne, huA, haeq⟩ := auc_closed_form A a ha
  obtain ⟨hBne, huB, hbeq⟩ := auc_closed_form B b hb
  rw [haeq, hbeq, hlen]
  have key := hsum_takeWhile_mono hle (le_refl (0 : ℚ)) (by norm_num)
  have hN : (0 : ℚ) < (B.length : ℚ) := by
    have : 0 < B.length := List.length_pos.mpr hBne
    exact_mod_cast this
  have h1 : hsum 0 ((List.insertionSort (fun x y => x ≤ y) B).takeWhile
        (fun y => decide (y ≤ 1 / 10))) / (B.length : ℚ) ≤
      hsum 0 ((List.insertionSort (fun x y => x ≤ y) A).takeWhile
        (fun y => decide (y ≤ 1 / 10))) / (B.length : ℚ) := by
    rw [div_le_div_iff₀ hN hN]
    exact mul_le_mul_of_nonneg_right key (le_of_lt hN)
  linarith

/-- Witness for C5 at the concrete arrays A equal to 0, 0.05 and B
equal to 0.05, 0.2: the scores are 1 and 1/2 respectively. -/
theorem auc_monotone_witness :
    compute_auc_posecnn [0, 1 / 20] = some 1 ∧
    compute_auc_posecnn [1 / 20, 1 / 5] = some (1 / 2) ∧ ((1 : ℚ) / 2 ≤ 1) := by
  have ha : compute_auc_posecnn [0, 1 / 20] = some 1 := by
    norm_num [compute_auc_posecnn, finPairs, infMask, accList, aucBody, runMax, vocSum,
      List.insertionSort, List.orderedInsert, List.range_succ, List.filterMap_cons]
  have hb : compute_auc_posecnn [1 / 20, 1 / 5] = some (1 / 2) := by
    norm_num [compute_auc_posecnn, finPairs, infMask, accList, aucBody, runMax, vocSum,
      List.insertionSort, List.orderedInsert, List.range_succ, List.filterMap_cons]
  refine ⟨ha, hb, ?_⟩
  exact auc_monotone [0, 1 / 20] [1 / 20, 1 / 5] rfl (by norm_num) (by norm_num)
    (by norm_num [List.insertionSort, List.orderedInsert, List.forall₂_cons]) 1 (1 / 2) ha hb

/-! ### Translation error -/

/-- C8: for every two 3-element inputs, `te` returns the mean of the
three per-axis absolute differences of ground truth minus estimate; any
pair of inputs in which an element count differs from 3 fails the
precondition assertion (returns `none`). -/
theorem te_spec :
    (∀ a1 a2 a3 b1 b2 b3 : ℚ,
      te [a1, a2, a3] [b1, b2, b3] = some ((|b1 - a1| + |b2 - a2| + |b3 - a3|) / 3)) ∧
    (∀ u v : List ℚ, u.length ≠ 3 ∨ v.length ≠ 3 → te u v = none) := by
  constructor
  · intro a1 a2 a3 b1 b2 b3
    unfold te
    rw [if_pos (by simp)]
    simp [mean]
    ring
  · intro u v h
    unfold te
    rw [if_neg]
    rintro ⟨h1, h2⟩
    rcases h with h | h
    · exact h (h1.trans h2)
    · exact h h2

/-- Witness for C8: a 3-element call evaluates to the stated mean and a
size-violating call fails the assertion. -/
theorem te_spec_witness : te [1, 2, 3] [4, 6, 8] = some 4 ∧ te [1] [2, 2, 2] = none := by
  constructor
  · rw [te_spec.1 1 2 3 4 6 8]
    norm_num
  · exact te_spec.2 [1] [2, 2, 2] (Or.inl (by simp))

/-! ### Rotation error -/

/-- C6: for every two valid rotation matrices (orthonormal with
determinant one), `re` is symmetric in its arguments and its value lies
in the interval from 0 to 180 degrees. -/
theorem re_symm_range (R1 R2 : Matrix (Fin 3) (Fin 3) ℝ)
    (h1 : R1.transpose * R1 = 1) (h1d : R1.det = 1)
    (h2 : R2.transpose * R2 = 1) (h2d : R2.det = 1) :
    re R1 R2 = re R2 R1 ∧ 0 ≤ re R1 R2 ∧ re R1 R2 ≤ 180 := by
  have hinv2 : R2⁻¹ = R2.transpose := Matrix.inv_eq_left_inv h2
  have hinv1 : R1⁻¹ = R1.transpose := Matrix.inv_eq_left_inv h1
  have htr : Matrix.trace (R1 * R2⁻¹) = Matrix.trace (R2 * R1⁻¹) := by
    rw [hinv1, hinv2]
    rw [← Matrix.trace_transpose (R1 * R2.transpose), Matrix.transpose_mul,
      Matrix.transpose_transpose]
  refine ⟨by unfold re; rw [htr], ?_, ?_⟩
  · unfold re degrees
    apply mul_nonneg (Real.arccos_nonneg _)
    positivity
  · unfold re degrees
    have harc := Real.arccos_le_pi (clip ((Matrix.trace (R1 * R2⁻¹) - 1) * (1 / 2)))
    have hpi : (0 : ℝ) < 180 / Real.pi := by positivity
    calc Real.arccos (clip ((Matrix.trace (R1 * R2⁻¹) - 1) * (1 / 2))) * (180 / Real.pi)
        ≤ Real.pi * (180 / Real.pi) := by
          exact mul_le_mul_of_nonneg_right harc (le_of_lt hpi)
      _ = 180 := by
          field_simp

/-- Witness for C6 at the identity rotation pair. -/
theorem re_symm_range_witness :
    re 1 1 = re 1 1 ∧ 0 ≤ re 1 1 ∧ re 1 1 ≤ 180 :=
  re_symm_range 1 1 (by simp) (by simp) (by simp) (by simp)

/-- C7: the cosine argument of `re` is clipped into the arccos domain
before arccos is taken (so no domain error can occur for any input),
and whenever the raw cosine argument is at least 1 — as for two nearly
identical rotations whose computed argument exceeds 1 by floating
error — the returned error is exactly 0 degrees. -/
theorem re_clip_safety (R_est R_gt : Matrix (Fin 3) (Fin 3) ℝ) :
    (-1 ≤ clip ((Matrix.trace (R_est * R_gt⁻¹) - 1) * (1 / 2)) ∧
      clip ((Matrix.trace (R_est * R_gt⁻¹) - 1) * (1 / 2)) ≤ 1) ∧
    (1 ≤ (Matrix.trace (R_est * R_gt⁻¹) - 1) * (1 / 2) → re R_est R_gt = 0) := by
  constructor
  · constructor
    · unfold clip
      exact le_min (by norm_num) (le_max_left _ _)
    · unfold clip
      exact min_le_left _ _
  · intro h
    unfold re clip
    rw [max_eq_right (le_trans (by norm_num) h), min_eq_left h, Real.arccos_one]
    unfold degrees
    rw [zero_mul]

/-- Witness for C7 at the identity pair, whose raw cosine argument is
exactly 1 (trace of the identity is 3). -/
theorem re_clip_safety_witness :
    (1 ≤ (Matrix.trace ((1 : Matrix (Fin 3) (Fin 3) ℝ) * (1 : Matrix (Fin 3) (Fin 3) ℝ)⁻¹) - 1)
      * (1 / 2)) ∧ re 1 1 = 0 := by
  have h : (1 : ℝ) ≤ (Matrix.trace ((1 : Matrix (Fin 3) (Fin 3) ℝ)
      * (1 : Matrix (Fin 3) (Fin 3) ℝ)⁻¹) - 1) * (1 / 2) := by
    rw [inv_one, mul_one, Matrix.trace_one]
    norm_num
  exact ⟨h, (re_clip_safety 1 1).2 h⟩

/-! ### Quaternion rotation error -/

/-- C10: `quat_re` validates nothing and clips nothing: it is defined on
every pair of quaternion arrays (one output entry per paired row, no
error on non-unit inputs), an entry whose row-wise dot product lies
outside the arccos domain is NaN (`none`), and an entry whose dot
product s lies inside the domain equals degrees(arccos(s)). -/
theorem quat_re_spec (q1 q2 : List (List ℝ)) :
    (quat_re q1 q2).length = min q1.length q2.length ∧
    (∀ i, i < min q1.length q2.length →
      ((1 < (List.zipWith (fun a b => a * b) (q1.getD i []) (q2.getD i [])).sum ∨
          (List.zipWith (fun a b => a * b) (q1.getD i []) (q2.getD i [])).sum < -1) →
        (quat_re q1 q2).getD i (some 0) = none) ∧
      (-1 ≤ (List.zipWith (fun a b => a * b) (q1.getD i []) (q2.getD i [])).sum →
        (List.zipWith (fun a b => a * b) (q1.getD i []) (q2.getD i [])).sum ≤ 1 →
        (quat_re q1 q2).getD i none =
          some (degrees (Real.arccos
            (List.zipWith (fun a b => a * b) (q1.getD i []) (q2.getD i [])).sum)))) := by
  have hlen : (quat_re q1 q2).length = min q1.length q2.length := by
    unfold quat_re
    simp [List.length_zipWith]
  refine ⟨hlen, ?_⟩
  intro i hi
  have hbound : i < (List.zipWith
      (fun r1 r2 => (List.zipWith (fun a b => a * b) r1 r2).sum) q1 q2).length := by
    rw [List.length_zipWith]
    simpa using hi
  have h1 : i < q1.length := lt_of_lt_of_le hi (min_le_left _ _)
  have h2 : i < q2.length := lt_of_lt_of_le hi (min_le_right _ _)
  constructor
  · intro hout
    unfold quat_re
    rw [getD_map_lt _ _ hbound _ 0, getD_zipWith_lt _ q1 q2 h1 h2 0 [] []]
    unfold arccosN
    rw [if_neg]
    · rfl
    · rintro ⟨hg1, hg2⟩
      rcases hout with hout | hout
      · exact absurd hg2 (not_le.mpr hout)
      · exact absurd hg1 (not_le.mpr hout)
  · intro hg1 hg2
    unfold quat_re
    rw [getD_map_lt _ _ hbound _ 0, getD_zipWith_lt _ q1 q2 h1 h2 0 [] []]
    unfold arccosN
    rw [if_pos ⟨hg1, hg2⟩]
    rfl

/-- Witness for C10: two non-unit rows; the first has dot product 4
(NaN entry), the second has dot product 1 (angle 0). -/
theorem quat_re_spec_witness :
    (quat_re [[2, 0, 0, 0], [1, 0, 0, 0]] [[2, 0, 0, 0], [1, 0, 0, 0]]).getD 0 (some 0) = none ∧
    (quat_re [[2, 0, 0, 0], [1, 0, 0, 0]] [[2, 0, 0, 0], [1, 0, 0, 0]]).getD 1 none =
      some (degrees (Real.arccos
        (List.zipWith (fun a b => a * b)
          (([[(2 : ℝ), 0, 0, 0], [1, 0, 0, 0]]).getD 1 [])
          (([[(2 : ℝ), 0, 0, 0], [1, 0, 0, 0]]).getD 1 [])).sum)) := by
  constructor
  · apply ((quat_re_spec [[2, 0, 0, 0], [1, 0, 0, 0]] [[2, 0, 0, 0], [1, 0, 0, 0]]).2 0
      (by norm_num)).1
    left
    norm_num
  · apply ((quat_re_spec [[2, 0, 0, 0], [1, 0, 0, 0]] [[2, 0, 0, 0], [1, 0, 0, 0]]).2 1
      (by norm_num)).2
    · norm_num
    · norm_num

/-! ### Batched transform: layout -/

/-- C2 counterexample: for M = 2 points and N = 1 pose the batched
transform has shape (1, 3, 2), not the claimed N x M x 3 = (1, 2, 3). -/
theorem transform_batch_shape_ce :
    shape3 (transform_pts_Rt_batch ([[1, 2, 3], [4, 5, 6]] : List (List ℚ))
      [[[1, 0, 0], [0, 1, 0], [0, 0, 1]]] [[10, 20, 30]]) ≠ (1, 2, 3) := by
  have h : shape3 (transform_pts_Rt_batch ([[1, 2, 3], [4, 5, 6]] : List (List ℚ))
      [[[1, 0, 0], [0, 1, 0], [0, 0, 1]]] [[10, 20, 30]]) = (1, 3, 2) := rfl
  rw [h]
  decide

lemma transposeN_col (pts : List (List ℚ)) {m : ℕ} (hm : m < pts.length)
    (hpts : ∀ r ∈ pts, r.length = 3) :
    getCol m (transposeN 3 pts) = pts.getD m [] := by
  have hpm : (pts.getD m []).length = 3 := by
    apply hpts
    rw [List.getD_eq_getElem _ _ hm]
    exact List.getElem_mem _
  unfold transposeN getCol
  rw [List.map_map]
  have hstep : ∀ j ∈ List.range 3,
      ((fun r : List ℚ => r.getD m 0) ∘ fun j => pts.map fun r => r.getD j 0) j =
      (fun j => (pts.getD m []).getD j 0) j := by
    intro j _
    simp only [Function.comp_apply]
    exact getD_map_lt _ pts hm 0 []
  rw [List.map_congr_left hstep]
  exact map_range_getD hpm 0

/-- C2 (amended): for shape-valid inputs (M x 3 points, N rotation
matrices of trailing dims 3 x 3, N translations of length 3) the
batched transform returns an N x 3 x M array — not N x M x 3 — whose
slice at pose index n holds, as its column at point index m, exactly
the vector R_n pts_m + t_n: point index is preserved within each pose
slot (as the column index) and pose index across the batch. -/
theorem transform_batch_layout (pts : List (List ℚ)) (R : List (List (List ℚ)))
    (t : List (List ℚ)) (hRt : R.length = t.length) (hR : ∀ M ∈ R, M.length = 3)
    (ht : ∀ v ∈ t, v.length = 3) (hpts : ∀ r ∈ pts, r.length = 3) :
    (transform_pts_Rt_batch pts R t).length = R.length ∧
    (∀ n, n < R.length →
      ((transform_pts_Rt_batch pts R t).getD n []).length = 3 ∧
      (∀ row ∈ (transform_pts_Rt_batch pts R t).getD n [], row.length = pts.length) ∧
      (∀ m, m < pts.length →
        getCol m ((transform_pts_Rt_batch pts R t).getD n []) =
          List.zipWith (fun x y => x + y) (matVec (R.getD n []) (pts.getD m []))
            (t.getD n []))) := by
  have hlen : (transform_pts_Rt_batch pts R t).length = R.length := by
    unfold transform_pts_Rt_batch
    rw [List.length_zipWith, hRt, min_self]
  refine ⟨hlen, ?_⟩
  intro n hn
  have hn' : n < t.length := hRt ▸ hn
  have hRn : (R.getD n []).length = 3 := by
    apply hR
    rw [List.getD_eq_getElem _ _ hn]
    exact List.getElem_mem _
  have htn : (t.getD n []).length = 3 := by
    apply ht
    rw [List.getD_eq_getElem _ _ hn']
    exact List.getElem_mem _
  have hslice : (transform_pts_Rt_batch pts R t).getD n [] =
      addCol (matMul (R.getD n []) (transposeN 3 pts)) (t.getD n []) := by
    unfold transform_pts_Rt_batch
    exact getD_zipWith_lt _ R t hn hn' [] [] []
  have hM : (transposeN 3 pts).headI.length = pts.length := by
    unfold transposeN getCol
    rw [show List.range 3 = [0, 1, 2] from rfl]
    simp
  have hXlen : (matMul (R.getD n []) (transposeN 3 pts)).length = 3 := by
    unfold matMul
    rw [List.length_map, hRn]
  have h3 : ((transform_pts_Rt_batch pts R t).getD n []).length = 3 := by
    rw [hslice]
    unfold addCol
    rw [List.length_zipWith, hXlen, htn, min_self]
  refine ⟨h3, ?_, ?_⟩
  · intro row hrow
    rw [hslice] at hrow
    unfold addCol at hrow
    obtain ⟨i, hi, rfl⟩ := List.mem_iff_get.mp hrow
    rw [List.get_eq_getElem, List.getElem_zipWith, List.length_map]
    unfold matMul
    rw [List.getElem_map]
    simp [hM]
  · intro m hm
    rw [hslice]
    unfold addCol getCol
    rw [List.map_zipWith]
    unfold matMul
    rw [List.zipWith_map_left]
    unfold matVec
    rw [List.zipWith_map_left]
    have hfun : (fun (a : List ℚ) (b : ℚ) =>
        (((List.range (transposeN 3 pts).headI.length).map
          (fun j => dot a (getCol j (transposeN 3 pts)))).map (fun x => x + b)).getD m 0) =
        (fun (a : List ℚ) (b : ℚ) => dot a (pts.getD m []) + b) := by
      funext r ti
      rw [List.map_map]
      have hmm : m < (List.range (transposeN 3 pts).headI.length).length := by
        rw [List.length_range, hM]
        exact hm
      rw [getD_map_lt _ _ hmm 0 0, List.getD_eq_getElem _ _ (by simpa [hM] using hm),
        List.getElem_range, Function.comp_apply, transposeN_col pts hm hpts]
    rw [hfun]

/-! ### The assert statements of add -/

/-- C9 counterexample: a call whose ground-truth rotation array has
trailing dims 2 x 3 — violating the 3 x 3 precondition for the
ground-truth array — while the estimated rotation array is valid does
NOT fail with an assertion error: no assert in `add` or in its callee
inspects `R_gt` (at this input the source instead raises a
broadcasting ValueError later, after `pts_est` has already been
computed — an error of a different kind, not the assertion, and not
before computation). -/
theorem add_assert_ce :
    is3x3 [[[(1 : ℝ), 2, 3], [4, 5, 6]]] = false ∧
    add_raises_assertion [[[(1 : ℝ), 0, 0], [0, 1, 0], [0, 0, 1]]] [[0, 0, 0]] = false :=
  ⟨rfl, rfl⟩

/-- C9 (amended): `add` asserts the trailing-3x3 shape precondition
only on the estimated rotation array: for every call with well-formed
points, an `R_est` violating it raises an AssertionError immediately
and the call produces no result (`none`), while a valid `R_est` raises
no assertion error whatever the ground-truth rotation array is — a
violation only in `R_gt` is never caught by the assertion. -/
theorem add_assert_only_est (R_est : List (List (List ℝ))) (t_est : List (List ℝ))
    (R_gt : List (List (List ℝ))) (t_gt : List (List ℝ)) (pts : List (List ℝ))
    (hpts : ∀ r ∈ pts, r.length = 3) :
    (is3x3 R_est = false →
      add_raises_assertion R_est pts = true ∧ add R_est t_est R_gt t_gt pts = none) ∧
    (is3x3 R_est = true → add_raises_assertion R_est pts = false) := by
  constructor
  · intro h
    constructor
    · unfold add_raises_assertion
      rw [h]
      rfl
    · unfold add
      rw [if_neg (by simp [h])]
  · intro h
    have hall : pts.all (fun r => r.length == 3) = true := by
      rw [List.all_eq_true]
      intro r hr
      simpa using hpts r hr
    unfold add_raises_assertion
    rw [h, hall]
    simp

/-- Witness for the amended C9: an estimated rotation array of
trailing dims 2 x 3 raises the assertion and yields no result, while a
valid estimated rotation array raises no assertion error even though
the ground-truth rotation array passed alongside it violates the
precondition. -/
theorem add_assert_only_est_witness :
    (add_raises_assertion [[[(1 : ℝ), 2, 3], [4, 5, 6]]] [[0, 0, 0]] = true ∧
      add [[[(1 : ℝ), 2, 3], [4, 5, 6]]] [[0, 0, 0]] [[[1, 0, 0], [0, 1, 0], [0, 0, 1]]]
        [[0, 0, 0]] [[0, 0, 0]] = none) ∧
    add_raises_assertion [[[(1 : ℝ), 0, 0], [0, 1, 0], [0, 0, 1]]] [[0, 0, 0]] = false :=
  ⟨(add_assert_only_est [[[(1 : ℝ), 2, 3], [4, 5, 6]]] [[0, 0, 0]]
      [[[1, 0, 0], [0, 1, 0], [0, 0, 1]]] [[0, 0, 0]] [[0, 0, 0]] (by norm_num)).1 rfl,
   (add_assert_only_est [[[(1 : ℝ), 0, 0], [0, 1, 0], [0, 0, 1]]] [[0, 0, 0]]
      [[[1, 2, 3], [4, 5, 6]]] [[0, 0, 0]] [[0, 0, 0]] (by norm_num)).2 rfl⟩

/-! ### ADI is bounded by ADD -/

lemma zip_sub_sq_comm : ∀ a b : List ℝ,
    (List.zipWith (fun x y => x - y) a b).map (fun x => x ^ 2) =
    (List.zipWith (fun x y => x - y) b a).map (fun x => x ^ 2) := by
  intro a
  induction a with
  | nil => intro b; cases b <;> simp
  | cons x xs ih =>
    intro b
    cases b with
    | nil => simp
    | cons y ys =>
      simp only [List.zipWith_cons_cons, List.map_cons, ih ys]
      congr 1
      ring

lemma eudist_comm (a b : List ℝ) : eudist a b = eudist b a := by
  unfold eudist
  rw [zip_sub_sq_comm]

lemma foldl_min_le_start (g : List ℝ) : ∀ (l : List (List ℝ)) (a : ℝ),
    l.foldl (fun acc x => min acc (eudist g x)) a ≤ a := by
  intro l
  induction l with
  | nil => intro a; simp
  | cons x xs ih =>
    intro a
    exact le_trans (ih (min a (eudist g x))) (min_le_left _ _)

lemma foldl_min_le_mem (g : List ℝ) : ∀ (l : List (List ℝ)) (a : ℝ) (e : List ℝ), e ∈ l →
    l.foldl (fun acc x => min acc (eudist g x)) a ≤ eudist g e := by
  intro l
  induction l with
  | nil => intro a e he; simp at he
  | cons x xs ih =>
    intro a e he
    rcases List.mem_cons.mp he with h | h
    · subst h
      exact le_trans (foldl_min_le_start g xs _) (min_le_right _ _)
    · exact ih _ e h

lemma nnDist_le (g e : List ℝ) (es : List (List ℝ)) (he : e ∈ es) :
    nnDist g es ≤ eudist g e := by
  cases es with
  | nil => simp at he
  | cons x xs =>
    unfold nnDist
    rcases List.mem_cons.mp he with h | h
    · subst h
      exact foldl_min_le_start g xs _
    · exact foldl_min_le_mem g xs _ e h

lemma mean_map_range_mono (M : ℕ) (hM : M ≠ 0) (f g : ℕ → ℝ)
    (hfg : ∀ m ∈ List.range M, f m ≤ g m) :
    mean ((List.range M).map f) ≤ mean ((List.range M).map g) := by
  unfold mean
  rw [List.length_map, List.length_range, List.length_map, List.length_range]
  have hMpos : (0 : ℝ) < (M : ℝ) := by
    have : 0 < M := Nat.pos_of_ne_zero hM
    exact_mod_cast this
  rw [div_le_div_iff₀ hMpos hMpos]
  exact mul_le_mul_of_nonneg_right (List.sum_le_sum hfg) (le_of_lt hMpos)

/-- C3: for every pair of single poses and every point set with at
least one point, the ADI error is at most the ADD error of the same
pose pair computed with the estimated pose as a batch of one: the mean
nearest-neighbour distance never exceeds the mean paired distance. -/
theorem adi_le_add (R_est : List (List ℝ)) (t_est : List ℝ) (R_gt : List (List ℝ))
    (t_gt : List ℝ) (pts : List (List ℝ)) (l : List ℝ)
    (hpts : pts ≠ []) (hpts3 : ∀ r ∈ pts, r.length = 3)
    (hre : R_est.length = 3) (hte : t_est.length = 3)
    (h : add [R_est] [t_est] [R_gt] [t_gt] pts = some l) :
    adi R_est t_est R_gt t_gt pts ≤ l.headD 0 := by
  unfold add at h
  split at h
  case isFalse =>
    exact absurd h (by simp)
  unfold transform_pts_Rt_batch at h
  simp only [List.zipWith_cons_cons, List.zipWith_nil, List.zipWith_nil_left,
    List.zipWith_nil_right] at h
  have hl : l = [mean (sliceDists (addCol (matMul R_est (transposeN 3 pts)) t_est)
      (addCol (matMul R_gt (transposeN 3 pts)) t_gt))] := (Option.some.inj h).symm
  rw [hl, List.headD_cons]
  -- the heads of the est slice have pts.length entries
  obtain ⟨r0, R', hR0⟩ := List.exists_cons_of_ne_nil
    (show R_est ≠ [] by intro hh; rw [hh] at hre; simp at hre)
  obtain ⟨s0, t', ht0⟩ := List.exists_cons_of_ne_nil
    (show t_est ≠ [] by intro hh; rw [hh] at hte; simp at hte)
  have hM : (addCol (matMul R_est (transposeN 3 pts)) t_est).headI.length = pts.length := by
    rw [hR0, ht0]
    unfold addCol matMul
    simp only [List.map_cons, List.zipWith_cons_cons, List.headI]
    rw [List.length_map, List.length_map, List.length_range]
    unfold transposeN getCol
    rw [show List.range 3 = [0, 1, 2] from rfl]
    simp
  unfold adi transform_pts_Rt
  unfold sliceDists
  rw [hM]
  unfold transposeN
  rw [List.map_map]
  apply mean_map_range_mono pts.length
    (fun h0 => hpts (List.length_eq_zero.mp h0))
  intro m hm
  simp only [Function.comp_apply]
  have hmem : getCol m (addCol (matMul R_est (transposeN 3 pts)) t_est) ∈
      (List.range pts.length).map
        (fun j => getCol j (addCol (matMul R_est (transposeN 3 pts)) t_est)) :=
    List.mem_map.mpr ⟨m, hm, rfl⟩
  calc nnDist (getCol m (addCol (matMul R_gt (transposeN 3 pts)) t_gt))
        ((List.range pts.length).map
          (fun j => getCol j (addCol (matMul R_est (transposeN 3 pts)) t_est)))
      ≤ eudist (getCol m (addCol (matMul R_gt (transposeN 3 pts)) t_gt))
          (getCol m (addCol (matMul R_est (transposeN 3 pts)) t_est)) :=
        nnDist_le _ _ _ hmem
    _ = eudist (getCol m (addCol (matMul R_est (transposeN 3 pts)) t_est))
          (getCol m (addCol (matMul R_gt (transposeN 3 pts)) t_gt)) := eudist_comm _ _

/-- Witness for the amended C2 at one point and one pose. -/
theorem transform_batch_layout_witness :
    (transform_pts_Rt_batch ([[1, 2, 3]] : List (List ℚ)) [[[0, 1, 0], [0, 0, 1], [1, 0, 0]]]
      [[7, 8, 9]]).length = 1 ∧
    getCol 0 ((transform_pts_Rt_batch ([[1, 2, 3]] : List (List ℚ))
        [[[0, 1, 0], [0, 0, 1], [1, 0, 0]]] [[7, 8, 9]]).getD 0 []) =
      List.zipWith (fun x y => x + y)
        (matVec (([[[0, 1, 0], [0, 0, 1], [1, 0, 0]]] : List (List (List ℚ))).getD 0 [])
          (([[1, 2, 3]] : List (List ℚ)).getD 0 []))
        (([[7, 8, 9]] : List (List ℚ)).getD 0 []) := by
  have h := transform_batch_layout [[1, 2, 3]] [[[0, 1, 0], [0, 0, 1], [1, 0, 0]]] [[7, 8, 9]]
    rfl (by norm_num) (by norm_num) (by norm_num)
  exact ⟨h.1, (h.2 0 (by norm_num)).2.2 0 (by norm_num)⟩

/-- Witness for C3 at a one-point set with both poses zero. -/
theorem adi_le_add_witness :
    adi [[0, 0, 0], [0, 0, 0], [0, 0, 0]] [0, 0, 0] [[0, 0, 0], [0, 0, 0], [0, 0, 0]] [0, 0, 0]
      [[(0 : ℝ), 0, 0]] ≤
    ((add [[[0, 0, 0], [0, 0, 0], [0, 0, 0]]] [[0, 0, 0]]
      [[[0, 0, 0], [0, 0, 0], [0, 0, 0]]] [[0, 0, 0]] [[(0 : ℝ), 0, 0]]).getD []).headD 0 :=
  adi_le_add _ _ _ _ _ _ (by simp) (by norm_num) rfl rfl rfl
